import Mathlib

/-!
Shallow embedding of `pwsave.py` (class PassphraseSaver): a small
encrypted passphrase vault kept in one file on a memory card.

Modelling conventions:
* a Python string is its sequence of character code points, `List Nat`;
* a byte string is `List Nat`;
* external collaborators (the `tcc` AES-CTR cipher, `ujson`
  serialization, the card slot, the display) are modelled from the
  contracts the specification states for them; everything else is a
  direct transcription of the Python in `pwsave.py`.
-/

/-- Code point of the mask character used by the hint algorithm. -/
def star : Nat := 42

/-- One stored passphrase record, `dict(xfp=xfp, pw=bip39pw)`:
`xfp` is the owner identity fingerprint, `pw` the secret string. -/
structure Record where
  xfp : Nat
  pw : List Nat
deriving DecidableEq

/-- Reveal the first `N` code points and mask the rest, transcribing
`i[0:N] + ('*'*(len(i)-N if len(i) > N else 0))` from `make_menu`. -/
def hintPre (N : Nat) (s : List Nat) : List Nat :=
  s.take N ++ List.replicate (if N < s.length then s.length - N else 0) star

/-- Mask the head and reveal the last `N` code points, transcribing
`('*'*(len(i)-N if len(i) > N else 0)) + i[-N:]` from `make_menu`
(the loop only uses `N ≥ 1`, so the Python `i[-N:]` is the last
`min N (len i)` characters, i.e. `s.drop (s.length - N)`). -/
def hintSuf (N : Nat) (s : List Nat) : List Nat :=
  List.replicate (if N < s.length then s.length - N else 0) star ++ s.drop (s.length - N)

/-- The deduplication loop of `make_menu`: keep the first occurrence of
each `pw` value, in order of first appearance. -/
def dedupPws (data : List Record) : List (List Nat) :=
  data.foldl (fun pws r => if r.pw ∈ pws then pws else pws ++ [r.pw]) []

/-- The `for N in range(1, 8)` loop of `make_menu`, with its for-else
fallback.  The Python check `len(set(parts)) == len(pws)` is the
cardinality test `parts.dedup.length = pws.length`.  `fuel` counts the
remaining values of `N`; the loop starts at `N = 1` with `fuel = 7`. -/
def hintAux (pws : List (List Nat)) (N fuel : Nat) : List (List Nat) :=
  match fuel with
  | 0 => pws
  | fuel + 1 =>
    let p := pws.map (hintPre N)
    if p.dedup.length = pws.length then p
    else
      let s := pws.map (hintSuf N)
      if s.dedup.length = pws.length then s
      else hintAux pws (N + 1) fuel

/-- The hint computation of `make_menu`: try `N = 1` to `7`, first the
head-revealing variant, then the tail-revealing one; if no `N` works,
fall back to the secrets themselves. -/
def computeHints (pws : List (List Nat)) : List (List Nat) := hintAux pws 1 7

/-- The labels of the menu built by `make_menu` over stored `data`. -/
def menuLabels (data : List Record) : List (List Nat) :=
  computeHints (dedupPws data)

/-- The secret the callback `doit` applies for menu index `idx`:
`data[idx].get('pw')` — indexing the ORIGINAL record list, not the
deduplicated one the labels were computed from. -/
def appliedSecret (data : List Record) (idx : Nat) : List Nat :=
  (data.getD idx ⟨0, []⟩).pw

/-! ### Serialization.

Modelled from the spec: `ujson.dumps` / `ujson.loads` are external; the
spec requires only that the record list is "serialized as a structured
document" and parsed back, parse failure being detectable.  We use an
injective, self-delimiting encoding with a total parser returning
`Option`. -/

/-- Encode one string as its length followed by its code points. -/
def encodeStr (s : List Nat) : List Nat := s.length :: s

/-- Encode one record as its `xfp` followed by its encoded `pw`. -/
def encodeRecord (r : Record) : List Nat := r.xfp :: encodeStr r.pw

/-- Serialize a record list: its length, then the records in order. -/
def serialize (rs : List Record) : List Nat := rs.length :: rs.flatMap encodeRecord

/-- Decode one length-prelude string, returning it and the leftover. -/
def decodeStr (bytes : List Nat) : Option (List Nat × List Nat) :=
  match bytes with
  | [] => none
  | len :: rest => if len ≤ rest.length then some (rest.take len, rest.drop len) else none

/-- Decode one record, returning it and the leftover bytes. -/
def decodeRecord (bytes : List Nat) : Option (Record × List Nat) :=
  match bytes with
  | [] => none
  | x :: rest => (decodeStr rest).map fun p => (⟨x, p.1⟩, p.2)

/-- Decode `n` consecutive records. -/
def decodeRecords : Nat → List Nat → Option (List Record × List Nat)
  | 0, bytes => some ([], bytes)
  | n + 1, bytes =>
    (decodeRecord bytes).bind fun p =>
      (decodeRecords n p.2).map fun q => (p.1 :: q.1, q.2)

/-- Parse a whole serialized record list; `none` on any malformation
(the model of `ujson.loads` raising). -/
def parse (bytes : List Nat) : Option (List Record) :=
  match bytes with
  | [] => none
  | n :: rest =>
    match decodeRecords n rest with
    | some (rs, []) => some rs
    | _ => none

/-! ### The cipher.

Modelled from the spec: `tcc.AES(tcc.AES.CTR | mode, key)` is external.
The spec says counter mode keyed by the derived key, a fresh
cipher-state object per call, and (design notes) a deterministic
starting counter — the constructor takes no nonce.  So a cipher is a
keystream (determined by the key alone) plus a position, constructed at
position 0, and `update` xors the message against the keystream. -/

/-- Counter-mode cipher state: keystream and current position. -/
structure AESCTR where
  ks : Nat → Nat
  pos : Nat

/-- `tcc.AES(tcc.AES.CTR | ..., key)`: a fresh cipher always starts at
the same fixed counter position 0; no nonce is supplied by the code. -/
def mkAES (ks : Nat → Nat) : AESCTR := ⟨ks, 0⟩

/-- Xor a message against the keystream starting at offset `off`. -/
def xorStream (ks : Nat → Nat) : Nat → List Nat → List Nat
  | _, [] => []
  | off, b :: bs => (b ^^^ ks off) :: xorStream ks (off + 1) bs

/-- `cipher.update(msg)`: consume keystream from the current position. -/
def AESCTR.update (c : AESCTR) (msg : List Nat) : List Nat :=
  xorStream c.ks c.pos msg

/-- Encrypting one whole blob with a fresh cipher, as `append` does. -/
def encryptBlob (ks : Nat → Nat) (rs : List Record) : List Nat :=
  (mkAES ks).update (serialize rs)

/-- Decrypting and parsing one whole blob with a fresh cipher. -/
def decryptBlob (ks : Nat → Nat) (bs : List Nat) : Option (List Record) :=
  parse ((mkAES ks).update bs)

/-! ### Read and append paths. -/

/-- The exceptions the embedded code distinguishes. -/
inductive PyErr where
  | notFound
  | parseFail
  | typeErr
deriving DecidableEq

/-- The body of `PassphraseSaver._read`'s try block: open the file
(raises `notFound` when missing), decrypt with a fresh cipher, parse
(raises `parseFail` when `ujson.loads` would).  The file contents are
`none` when the file does not exist. -/
def readBody (ks : Nat → Nat) (file : Option (List Nat)) : Except PyErr (List Record) :=
  match file with
  | none => .error .notFound
  | some bs =>
    match parse ((mkAES ks).update bs) with
    | none => .error .parseFail
    | some rs => .ok rs

/-- `PassphraseSaver._read`: the bare `except: return []` around the
body — every failure degrades to the empty list. -/
def pwsaveRead (ks : Nat → Nat) (file : Option (List Nat)) : List Record :=
  match readBody ks file with
  | .ok rs => rs
  | .error _ => []

/-- `data = self._read(card) if self.key else []` in `append`. -/
def readWithKey (key : Option (Nat → Nat)) (file : Option (List Nat)) : List Record :=
  match key with
  | some ks => pwsaveRead ks file
  | none => []

/-- One pass of the body of `append`'s card-slot block: read all, add
the new record, build the cipher, encrypt, write.  When `self.key` is
`None` the code still reaches `tcc.AES(..., None)`, whose constructor
rejects a missing key (`typeErr`), after the read already degraded to
`[]`.  On success the returned bytes are the new file contents. -/
def appendBody (key : Option (Nat → Nat)) (file : Option (List Nat)) (r : Record) :
    Except PyErr (List Nat) :=
  let data := readWithKey key file
  let data2 := data ++ [r]
  match key with
  | none => .error .typeErr
  | some ks => .ok ((mkAES ks).update (serialize data2))

/-- Outcome of the retry loop in `append`. -/
inductive AppendOutcome where
  | saved (file : Option (List Nat))
  | cancelled
  | raised (e : PyErr)
deriving DecidableEq

/-- The `while 1` loop of `append`.  `sched` lists, per attempt,
whether the card is present: an absent card raises the medium-missing
error, which is caught and retried; an exhausted schedule is the user
cancelling from the reinsert prompt (no write happened in failed
attempts).  Any other exception from the body escapes the loop, since
only the medium-missing error is caught. -/
def appendLoop (key : Option (Nat → Nat)) (file : Option (List Nat)) (r : Record) :
    List Bool → AppendOutcome
  | [] => .cancelled
  | present :: rest =>
    if present then
      match appendBody key file r with
      | .ok msg => .saved (some msg)
      | .error e => .raised e
    else appendLoop key file r rest

/-- The file contents after one `append` call with key available:
updated on success, unchanged when cancelled. -/
def runAppend (ks : Nat → Nat) (file : Option (List Nat)) (r : Record)
    (sched : List Bool) : Option (List Nat) :=
  match appendLoop (some ks) file r sched with
  | .saved f => f
  | _ => file

/-- The file contents after a sequence of `append` calls, each with its
own card-presence schedule. -/
def runAppends (ks : Nat → Nat) (file : Option (List Nat))
    (jobs : List (Record × List Bool)) : Option (List Nat) :=
  jobs.foldl (fun f j => runAppend ks f j.1 j.2) file

/-! ### The selection callback `doit` of `make_menu`. -/

/-- What the callback `doit` does, as observable by the user. -/
inductive DoitResult where
  | failStory (msg : List Nat)
  | assertFail
  | restored (xfp : Nat)
deriving DecidableEq

/-- The callback `doit(menu, idx, item)`: apply `data[idx]`'s secret
via `set_bip39_passphrase` (external, modelled by `setPw`: `some err`
is a returned error string); on error show the Fail story; otherwise
read the now-active fingerprint (`xfpAfter` applied to the passphrase
just set) and `assert` it equals the stored one — a failed assertion
raises, it shows no story. -/
def doit (data : List Record) (idx : Nat)
    (setPw : List Nat → Option (List Nat)) (xfpAfter : List Nat → Nat) : DoitResult :=
  let pw := appliedSecret data idx
  match setPw pw with
  | some err => .failStory err
  | none =>
    if xfpAfter pw = (data.getD idx ⟨0, []⟩).xfp then .restored (xfpAfter pw)
    else .assertFail

/-! ### Concrete material for witnesses. -/

/-- A sample keystream for concrete instances. -/
def exKs : Nat → Nat := fun n => n % 7

/-- A zero keystream for concrete instances. -/
def zeroKs : Nat → Nat := fun _ => 0

/-- A keystream differing from `zeroKs`, chosen so that decrypting a
blob written under `zeroKs` still parses (to different records). -/
def wrongKs : Nat → Nat := fun i => [0, 3, 0, 3].getD i 0

/-- A sample key-to-keystream map for concrete instances. -/
def exKeyStream : List Nat → Nat → Nat := fun key n => (key.headD 0 + n) % 13

/-- A sample 32-byte key. -/
def exKey32 : List Nat := List.replicate 32 9

/-- The spec's worked example: the code points of the secrets
`alpha`, `apple`, `azure`. -/
def exPws : List (List Nat) :=
  [[97, 108, 112, 104, 97], [97, 112, 112, 108, 101], [97, 122, 117, 114, 101]]

/-- A stored list with a duplicated secret before a distinct one:
records with secrets `a`, `a`, `b`. -/
def exData : List Record := [⟨5, [97]⟩, ⟨5, [97]⟩, ⟨6, [98]⟩]

/-! ### Helper lemmas. -/

/-- The Python check `len(set(l)) == len(l)` is exactly distinctness. -/
theorem dedup_length_eq_iff {α : Type} [DecidableEq α] (l : List α) :
    l.dedup.length = l.length ↔ l.Nodup := by
  constructor
  · intro h
    have hs : List.Sublist l.dedup l := List.dedup_sublist l
    have he : l.dedup = l := hs.eq_of_length h
    rw [← he]
    exact l.nodup_dedup
  · intro h
    rw [List.dedup_eq_self.2 h]

/-- Xoring a message against the same keystream twice is the identity. -/
theorem xorStream_xorStream (ks : Nat → Nat) :
    ∀ (off : Nat) (l : List Nat), xorStream ks off (xorStream ks off l) = l := by
  intro off l
  induction l generalizing off with
  | nil => rfl
  | cons b bs ih =>
    simp [xorStream, ih, Nat.xor_assoc]

/-- Decrypting a freshly encrypted blob undoes the encryption. -/
theorem update_update (ks : Nat → Nat) (msg : List Nat) :
    (mkAES ks).update ((mkAES ks).update msg) = msg := by
  simp [mkAES, AESCTR.update, xorStream_xorStream]

theorem decodeStr_encodeStr (s rest : List Nat) :
    decodeStr (encodeStr s ++ rest) = some (s, rest) := by
  simp [encodeStr, decodeStr, List.take_left, List.drop_left]

theorem decodeRecord_encodeRecord (r : Record) (rest : List Nat) :
    decodeRecord (encodeRecord r ++ rest) = some (r, rest) := by
  cases r with
  | mk x p =>
    simp [encodeRecord, decodeRecord, decodeStr_encodeStr]

theorem decodeRecords_encode (rs : List Record) (rest : List Nat) :
    decodeRecords rs.length (rs.flatMap encodeRecord ++ rest) = some (rs, rest) := by
  induction rs with
  | nil => rfl
  | cons r rs ih =>
    simp [decodeRecords, List.flatMap_cons, List.append_assoc,
      decodeRecord_encodeRecord, ih]

/-- Parsing a serialized record list gives the list back. -/
theorem parse_serialize (rs : List Record) : parse (serialize rs) = some rs := by
  have h := decodeRecords_encode rs []
  rw [List.append_nil] at h
  simp [serialize, parse, h]

/-- Reading a file that holds a freshly encrypted blob yields the
records that were encrypted. -/
theorem pwsaveRead_roundtrip (ks : Nat → Nat) (rs : List Record) :
    pwsaveRead ks (some ((mkAES ks).update (serialize rs))) = rs := by
  simp [pwsaveRead, readBody, update_update, parse_serialize]

theorem hintAux_succ_pre (pws : List (List Nat)) (N fuel : Nat)
    (hp : (pws.map (hintPre N)).dedup.length = pws.length) :
    hintAux pws N (fuel + 1) = pws.map (hintPre N) := by
  simp [hintAux, hp]

theorem hintAux_succ_suf (pws : List (List Nat)) (N fuel : Nat)
    (hp : (pws.map (hintPre N)).dedup.length ≠ pws.length)
    (hs : (pws.map (hintSuf N)).dedup.length = pws.length) :
    hintAux pws N (fuel + 1) = pws.map (hintSuf N) := by
  simp [hintAux, hp, hs]

theorem hintAux_succ_skip (pws : List (List Nat)) (N fuel : Nat)
    (hp : (pws.map (hintPre N)).dedup.length ≠ pws.length)
    (hs : (pws.map (hintSuf N)).dedup.length ≠ pws.length) :
    hintAux pws N (fuel + 1) = hintAux pws (N + 1) fuel := by
  simp [hintAux, hp, hs]

/-- Complete case analysis of the hint loop: either every `N` it
visited failed both checks and it fell back to the secrets themselves,
or it returned the candidate list of some visited `N` whose check
passed, the head-revealing variant taking priority at that `N`. -/
theorem hintAux_cases (pws : List (List Nat)) :
    ∀ (fuel N : Nat),
      (hintAux pws N fuel = pws ∧
        ∀ M, N ≤ M → M < N + fuel →
          (pws.map (hintPre M)).dedup.length ≠ pws.length ∧
          (pws.map (hintSuf M)).dedup.length ≠ pws.length) ∨
      (∃ M, N ≤ M ∧ M < N + fuel ∧
        (((pws.map (hintPre M)).dedup.length = pws.length ∧
            hintAux pws N fuel = pws.map (hintPre M)) ∨
         ((pws.map (hintPre M)).dedup.length ≠ pws.length ∧
          (pws.map (hintSuf M)).dedup.length = pws.length ∧
            hintAux pws N fuel = pws.map (hintSuf M)))) := by
  intro fuel
  induction fuel with
  | zero =>
    intro N
    left
    refine ⟨rfl, ?_⟩
    intro M h1 h2
    omega
  | succ fuel ih =>
    intro N
    by_cases hp : (pws.map (hintPre N)).dedup.length = pws.length
    · right
      exact ⟨N, Nat.le_refl N, by omega, Or.inl ⟨hp, hintAux_succ_pre pws N fuel hp⟩⟩
    · by_cases hs : (pws.map (hintSuf N)).dedup.length = pws.length
      · right
        exact ⟨N, Nat.le_refl N, by omega,
          Or.inr ⟨hp, hs, hintAux_succ_suf pws N fuel hp hs⟩⟩
      · rcases ih (N + 1) with ⟨heq, hall⟩ | ⟨M, hM1, hM2, hres⟩
        · left
          refine ⟨by rw [hintAux_succ_skip pws N fuel hp hs]; exact heq, ?_⟩
          intro M h1 h2
          by_cases hMN : M = N
          · subst hMN
            exact ⟨hp, hs⟩
          · exact hall M (by omega) (by omega)
        · right
          refine ⟨M, by omega, by omega, ?_⟩
          rw [hintAux_succ_skip pws N fuel hp hs]
          exact hres

/-- When every `N` in a leading stretch fails both checks, the loop
advances past that stretch. -/
theorem hintAux_skip_all (pws : List (List Nat)) :
    ∀ (k N fuel : Nat),
      (∀ M, N ≤ M → M < N + k →
        (pws.map (hintPre M)).dedup.length ≠ pws.length ∧
        (pws.map (hintSuf M)).dedup.length ≠ pws.length) →
      hintAux pws N (k + fuel) = hintAux pws (N + k) fuel := by
  intro k
  induction k with
  | zero =>
    intro N fuel _
    simp
  | succ k ih =>
    intro N fuel h
    have h1 : k + 1 + fuel = (k + fuel) + 1 := by omega
    rw [h1]
    have hN := h N (Nat.le_refl N) (by omega)
    rw [hintAux_succ_skip pws N (k + fuel) hN.1 hN.2]
    have h2 : N + (k + 1) = (N + 1) + k := by omega
    rw [h2]
    exact ih (N + 1) fuel (fun M hm1 hm2 => h M (by omega) (by omega))

/-- An append attempt with the card present writes the re-read list
plus the new record; medium-missing attempts before it change nothing,
so any schedule with at least one successful attempt writes exactly
once, from a fresh read. -/
theorem runAppend_success (ks : Nat → Nat) (file : Option (List Nat)) (r : Record) :
    ∀ sched : List Bool, true ∈ sched →
      runAppend ks file r sched =
        some ((mkAES ks).update (serialize (pwsaveRead ks file ++ [r]))) := by
  intro sched h
  induction sched with
  | nil => cases h
  | cons b rest ih =>
    cases b with
    | true =>
      simp [runAppend, appendLoop, appendBody, readWithKey]
    | false =>
      have hr : true ∈ rest := by
        rcases List.mem_cons.1 h with h1 | h1
        · cases h1
        · exact h1
      simp only [runAppend, appendLoop, Bool.false_eq_true, if_false]
      exact ih hr

/-- Folding appends over a job list extends the decrypted contents by
the appended records, in order. -/
theorem runAppends_read (ks : Nat → Nat) :
    ∀ (jobs : List (Record × List Bool)) (file : Option (List Nat)),
      (∀ j ∈ jobs, true ∈ j.2) →
      pwsaveRead ks (runAppends ks file jobs) =
        pwsaveRead ks file ++ jobs.map Prod.fst := by
  intro jobs
  induction jobs with
  | nil =>
    intro file _
    simp [runAppends]
  | cons j jobs ih =>
    intro file h
    have hj : true ∈ j.2 := h j (List.mem_cons_self j jobs)
    have hstep : runAppends ks file (j :: jobs) =
        runAppends ks (runAppend ks file j.1 j.2) jobs := rfl
    rw [hstep, ih _ (fun x hx => h x (List.mem_cons_of_mem j hx)),
      runAppend_success ks file j.1 j.2 hj, pwsaveRead_roundtrip]
    simp

example : computeHints [[97], [98]] = [[97], [98]] := by decide

example : hintPre 2 [97, 108, 112, 104, 97] = [97, 108, star, star, star] := by decide

example : parse (serialize [⟨1, [2, 3]⟩]) = some [⟨1, [2, 3]⟩] := by decide

example : pwsaveRead zeroKs (some [3]) = [] := by decide

/-- The dedup-length check on a mapped candidate list is distinctness
of the candidates. -/
theorem mapcheck_iff (pws : List (List Nat)) (f : List Nat → List Nat) :
    (pws.map f).dedup.length = pws.length ↔ (pws.map f).Nodup := by
  have h := dedup_length_eq_iff (pws.map f)
  rw [List.length_map] at h
  exact h

/-- Taking a prefix of the ciphertext is encrypting the corresponding
prefix of the plaintext: the keystream position only depends on the
offset, never on the data. -/
theorem xorStream_take (ks : Nat → Nat) :
    ∀ (l : List Nat) (off n : Nat),
      (xorStream ks off l).take n = xorStream ks off (l.take n) := by
  intro l
  induction l with
  | nil =>
    intro off n
    simp [xorStream]
  | cons b bs ih =>
    intro off n
    cases n with
    | zero => simp [xorStream]
    | succ n => simp [xorStream, ih]

/-! ### Claim theorems. -/

/-- C1: the claim says the secret applied on selecting menu index `i`
equals the secret the displayed fragment at position `i` was derived
from, even with duplicate stored secrets.  The code refutes this: the
labels come from the deduplicated list but `doit` indexes the original
list.  With stored secrets `a`, `a`, `b`, the menu has two labels, the
label at index 1 is derived from `b`, yet selecting it applies
`data[1].pw = a`; the fingerprint assertion even passes and the
success story is shown, so the wrong passphrase is restored
silently. -/
theorem pwsave_C1_bug :
    (menuLabels exData).length = 2 ∧
    (dedupPws exData).getD 1 [] = [98] ∧
    (menuLabels exData).getD 1 [] = hintPre 1 [98] ∧
    appliedSecret exData 1 = [97] ∧
    appliedSecret exData 1 ≠ (dedupPws exData).getD 1 [] ∧
    doit exData 1 (fun _ => none) (fun p => if p = [97] then 5 else 6) =
      .restored 5 := by
  decide

/-- C2: for pairwise-distinct secrets the hint computation returns the
same number of fragments, pairwise distinct; whenever some N in [1,7]
yields distinct candidates by one of the two variants, the result is
the candidate list of one such N (order preserved by `map`), and only
when no N works does it fall back to the secrets themselves. -/
theorem pwsave_C2 (pws : List (List Nat)) (h : pws.Nodup) :
    (computeHints pws).length = pws.length ∧
    (computeHints pws).Nodup ∧
    ((∃ N, 1 ≤ N ∧ N ≤ 7 ∧
        ((pws.map (hintPre N)).Nodup ∨ (pws.map (hintSuf N)).Nodup)) →
      ∃ N, 1 ≤ N ∧ N ≤ 7 ∧
        (computeHints pws = pws.map (hintPre N) ∨
         computeHints pws = pws.map (hintSuf N))) ∧
    ((∀ N, 1 ≤ N → N ≤ 7 →
        ¬(pws.map (hintPre N)).Nodup ∧ ¬(pws.map (hintSuf N)).Nodup) →
      computeHints pws = pws) := by
  have hc := hintAux_cases pws 7 1
  rcases hc with ⟨heq, hall⟩ | ⟨M, hM1, hM2, hres⟩
  · have hch : computeHints pws = pws := heq
    refine ⟨by rw [hch], by rw [hch]; exact h, ?_, fun _ => hch⟩
    rintro ⟨N, hN1, hN7, hNok⟩
    exfalso
    have hfail := hall N hN1 (by omega)
    rcases hNok with hNok | hNok
    · exact hfail.1 ((mapcheck_iff pws (hintPre N)).2 hNok)
    · exact hfail.2 ((mapcheck_iff pws (hintSuf N)).2 hNok)
  · rcases hres with ⟨hok, hch⟩ | ⟨hpre, hok, hch⟩
    · have hch : computeHints pws = pws.map (hintPre M) := hch
      refine ⟨by rw [hch]; exact List.length_map pws (hintPre M), ?_, ?_, ?_⟩
      · rw [hch]
        exact (mapcheck_iff pws (hintPre M)).1 hok
      · intro _
        exact ⟨M, hM1, by omega, Or.inl hch⟩
      · intro hnone
        exact absurd ((mapcheck_iff pws (hintPre M)).1 hok)
          (hnone M hM1 (by omega)).1
    · have hch : computeHints pws = pws.map (hintSuf M) := hch
      refine ⟨by rw [hch]; exact List.length_map pws (hintSuf M), ?_, ?_, ?_⟩
      · rw [hch]
        exact (mapcheck_iff pws (hintSuf M)).1 hok
      · intro _
        exact ⟨M, hM1, by omega, Or.inr hch⟩
      · intro hnone
        exact absurd ((mapcheck_iff pws (hintSuf M)).1 hok)
          (hnone M hM1 (by omega)).2

/-- Witness for C2 at the two distinct one-character secrets. -/
theorem pwsave_C2_witness : (computeHints [[97], [98]]).Nodup :=
  (pwsave_C2 [[97], [98]] (by decide)).2.1

/-- C3: when every combination before N fails, the loop returns N's
candidates, taking the head-revealing variant at N when it is distinct
and the tail-revealing one otherwise — the smallest sufficient N,
checking the two variants in order, always wins. -/
theorem pwsave_C3 (pws : List (List Nat)) (h : pws.Nodup) (N : Nat)
    (h1 : 1 ≤ N) (h7 : N ≤ 7)
    (hmin : ∀ M, 1 ≤ M → M < N →
      ¬(pws.map (hintPre M)).Nodup ∧ ¬(pws.map (hintSuf M)).Nodup) :
    ((pws.map (hintPre N)).Nodup → computeHints pws = pws.map (hintPre N)) ∧
    (¬(pws.map (hintPre N)).Nodup → (pws.map (hintSuf N)).Nodup →
      computeHints pws = pws.map (hintSuf N)) := by
  have hskip : computeHints pws = hintAux pws N (8 - N) := by
    have h70 : (7 : Nat) = (N - 1) + (8 - N) := by omega
    have hstep := hintAux_skip_all pws (N - 1) 1 (8 - N) ?_
    · show hintAux pws 1 7 = hintAux pws N (8 - N)
      rw [h70, hstep]
      have hN : 1 + (N - 1) = N := by omega
      rw [hN]
    · intro M hm1 hm2
      have hf := hmin M hm1 (by omega)
      exact ⟨fun hc => hf.1 ((mapcheck_iff pws (hintPre M)).1 hc),
        fun hc => hf.2 ((mapcheck_iff pws (hintSuf M)).1 hc)⟩
  have hfuel : 8 - N = (7 - N) + 1 := by omega
  constructor
  · intro hpre
    rw [hskip, hfuel]
    exact hintAux_succ_pre pws N (7 - N) ((mapcheck_iff pws (hintPre N)).2 hpre)
  · intro hpre hsuf
    rw [hskip, hfuel]
    exact hintAux_succ_suf pws N (7 - N)
      (fun hc => hpre ((mapcheck_iff pws (hintPre N)).1 hc))
      ((mapcheck_iff pws (hintSuf N)).2 hsuf)

/-- Witness for C3 on the spec's `alpha`, `apple`, `azure` example:
N = 1 fails both variants, N = 2 succeeds with the head variant. -/
theorem pwsave_C3_witness : computeHints exPws = exPws.map (hintPre 2) :=
  (pwsave_C3 exPws (by decide) 2 (by decide) (by decide)
    (by
      intro M hm1 hm2
      have hM : M = 1 := by omega
      subst hM
      exact ⟨by decide, by decide⟩)).1 (by decide)

/-- C4: decrypting a freshly written blob with a fresh counter-mode
cipher under the same key parses back to exactly the records that were
serialized and encrypted, for any keystream derived from any 32-byte
key and any non-empty record list. -/
theorem pwsave_C4 (keyStream : List Nat → Nat → Nat) (key : List Nat)
    (rs : List Record) (hkey : key.length = 32) (hne : rs ≠ []) :
    decryptBlob (keyStream key) (encryptBlob (keyStream key) rs) = some rs := by
  simp [decryptBlob, encryptBlob, update_update, parse_serialize]

/-- Witness for C4 at a concrete 32-byte key and one-record list. -/
theorem pwsave_C4_witness :
    decryptBlob (exKeyStream exKey32) (encryptBlob (exKeyStream exKey32) [⟨1, [2]⟩]) =
      some [⟨1, [2]⟩] :=
  pwsave_C4 exKeyStream exKey32 [⟨1, [2]⟩] (by decide) (by decide)

/-- C5: starting from no vault file, running any sequence of appends,
each with an arbitrary card-presence schedule containing at least one
successful attempt, leaves a blob that decrypts to exactly the appended
records in insertion order — medium-missing retries write nothing and
a retried append re-reads, so the new record is never duplicated. -/
theorem pwsave_C5 (ks : Nat → Nat) (jobs : List (Record × List Bool))
    (h : ∀ j ∈ jobs, true ∈ j.2) :
    pwsaveRead ks (runAppends ks none jobs) = jobs.map Prod.fst := by
  rw [runAppends_read ks jobs none h]
  rfl

/-- Witness for C5: two appends, the first with one medium-missing
retry before success. -/
theorem pwsave_C5_witness :
    pwsaveRead exKs
      (runAppends exKs none [(⟨1, [2]⟩, [false, true]), (⟨3, [4]⟩, [true])]) =
      [⟨1, [2]⟩, ⟨3, [4]⟩] :=
  pwsave_C5 exKs [(⟨1, [2]⟩, [false, true]), (⟨3, [4]⟩, [true])] (by decide)

/-- C6: the claim says that with the derived key unavailable the read
path yields an empty list and append hard-stops without writing, with
no exception escaping.  The read half holds (the data used is `[]`),
and nothing is written — but append does not stop cleanly: it still
reaches the cipher constructor with no key, which raises an error that
is not the medium-missing one, so it escapes the retry loop (whose
only handler is for the medium-missing error), contradicting the
no-escaping-exception part the claim states as the intent. -/
theorem pwsave_C6_bug (file : Option (List Nat)) (r : Record) :
    readWithKey none file = [] ∧
    appendLoop none file r [true] = .raised .typeErr := by
  exact ⟨rfl, rfl⟩

/-- C7 counterexample: the claim says a wrong key makes the read path
return the empty list, for every stored byte string.  But the format
has no integrity protection: a blob written under the zero keystream,
read under a different keystream chosen so the garbled plaintext still
parses, yields a non-empty (wrong) record list. -/
theorem pwsave_C7_cex :
    zeroKs 1 ≠ wrongKs 1 ∧
    pwsaveRead wrongKs (some (encryptBlob zeroKs [⟨1, [97]⟩])) = [⟨2, [98]⟩] ∧
    ([⟨2, [98]⟩] : List Record) ≠ ([] : List Record) := by
  decide

/-- C7 amended: the read path never lets an error escape — every
failure of the body (missing file, undecryptable or unparseable
content, and hence the typical wrong-key case) yields the empty list,
and a successful parse yields exactly the parsed records (so a wrong
key whose garbled plaintext happens to parse returns those garbage
records rather than the empty list). -/
theorem pwsave_C7_amended (ks : Nat → Nat) (file : Option (List Nat)) :
    ((∃ e, readBody ks file = .error e) → pwsaveRead ks file = []) ∧
    (∀ rs, readBody ks file = .ok rs → pwsaveRead ks file = rs) ∧
    (file = none → pwsaveRead ks file = []) ∧
    (∀ bs, file = some bs → parse ((mkAES ks).update bs) = none →
      pwsaveRead ks file = []) := by
  refine ⟨?_, ?_, ?_, ?_⟩
  · rintro ⟨e, he⟩
    simp [pwsaveRead, he]
  · intro rs hrs
    simp [pwsaveRead, hrs]
  · rintro rfl
    rfl
  · intro bs hbs hp
    subst hbs
    simp [pwsaveRead, readBody, hp]

/-- Witness for C7 amended: the missing-file case returns the empty
list. -/
theorem pwsave_C7_witness : pwsaveRead zeroKs none = [] :=
  (pwsave_C7_amended zeroKs none).2.2.1 rfl

/-- C8 counterexample: the claim says an owner-identity mismatch at
restore time is reported as a user-visible failure story.  With one
stored record owned by fingerprint 5 and an active identity that comes
out as 9 after the passphrase is applied, the callback instead hits
the bare `assert` — no story is shown; the assertion error escapes. -/
theorem pwsave_C8_cex :
    doit [⟨5, [97]⟩] 0 (fun _ => none) (fun _ => 9) = .assertFail ∧
    (∀ msg, doit [⟨5, [97]⟩] 0 (fun _ => none) (fun _ => 9) ≠ .failStory msg) ∧
    (9 : Nat) ≠ 5 := by
  have hd : doit [⟨5, [97]⟩] 0 (fun _ => none) (fun _ => 9) = .assertFail := by
    decide
  refine ⟨hd, ?_, by decide⟩
  intro msg h
  rw [hd] at h
  simp at h

/-- C8 amended: when the passphrase sets successfully but the stored
owner fingerprint differs from the resulting active identity, `doit`
aborts through the failed assertion (an uncaught error, not a display
story), and in particular never reports success — no other record is
silently substituted, since the secret it applied is still the one at
the selected index of the stored list. -/
theorem pwsave_C8_amended (data : List Record) (idx : Nat)
    (setPw : List Nat → Option (List Nat)) (xfpAfter : List Nat → Nat)
    (hok : setPw (appliedSecret data idx) = none)
    (hmm : xfpAfter (appliedSecret data idx) ≠ (data.getD idx ⟨0, []⟩).xfp) :
    doit data idx setPw xfpAfter = .assertFail ∧
    ∀ x, doit data idx setPw xfpAfter ≠ .restored x := by
  have hd : doit data idx setPw xfpAfter = .assertFail := by
    simp only [doit, hok]
    exact if_neg hmm
  refine ⟨hd, ?_⟩
  intro x h
  rw [hd] at h
  simp at h

/-- Witness for C8 amended at a concrete mismatching input. -/
theorem pwsave_C8_witness :
    doit [⟨5, [97]⟩, ⟨7, [99]⟩] 1 (fun _ => none) (fun _ => 9) = .assertFail :=
  (pwsave_C8_amended [⟨5, [97]⟩, ⟨7, [99]⟩] 1 (fun _ => none) (fun _ => 9)
    (by decide) (by decide)).1

/-- C9 counterexample: the claim says the counter consumed differs
between two writes under the same key, so equal plaintexts never give
identical ciphertexts.  The code passes no nonce: every write builds
its cipher from the key alone at the same fixed counter position 0, so
the two writes of the same record list produce byte-identical,
non-empty ciphertext. -/
theorem pwsave_C9_cex :
    encryptBlob exKs [⟨1, [2]⟩] = encryptBlob exKs [⟨1, [2]⟩] ∧
    (mkAES exKs).pos = 0 ∧
    encryptBlob exKs [⟨1, [2]⟩] ≠ [] := by
  refine ⟨rfl, rfl, by decide⟩

/-- C9 amended: every write starts its cipher at the same counter
position 0, and under one key equal plaintext prefixes encrypt to
equal ciphertext prefixes across writes — the keystream-reuse
weakness the design notes flag. -/
theorem pwsave_C9_amended (ks : Nat → Nat) (p1 p2 : List Nat) (n : Nat)
    (h : p1.take n = p2.take n) :
    (mkAES ks).pos = 0 ∧
    ((mkAES ks).update p1).take n = ((mkAES ks).update p2).take n := by
  refine ⟨rfl, ?_⟩
  simp only [AESCTR.update, mkAES]
  rw [xorStream_take, xorStream_take, h]

/-- Witness for C9 amended: two messages agreeing on their first
element give ciphertexts agreeing on their first element. -/
theorem pwsave_C9_witness :
    ((mkAES exKs).update [5, 6]).take 1 = ((mkAES exKs).update [5, 9]).take 1 :=
  (pwsave_C9_amended exKs [5, 6] [5, 9] 1 (by decide)).2

/-- C10: when the existing file does not decrypt to a parseable record
list under the current key, a successful append (after any number of
medium-missing retries) rewrites the file so that it now decrypts to
exactly the single new record — the unreadable contents are
discarded, not preserved. -/
theorem pwsave_C10 (ks : Nat → Nat) (bs : List Nat) (r : Record)
    (sched : List Bool) (hs : true ∈ sched)
    (hbad : parse ((mkAES ks).update bs) = none) :
    pwsaveRead ks (runAppend ks (some bs) r sched) = [r] := by
  rw [runAppend_success ks (some bs) r sched hs]
  have hempty : pwsaveRead ks (some bs) = [] := by
    simp [pwsaveRead, readBody, hbad]
  rw [hempty, pwsaveRead_roundtrip]
  rfl

/-- Witness for C10 at a concrete unparseable stored byte string. -/
theorem pwsave_C10_witness :
    pwsaveRead zeroKs (runAppend zeroKs (some [3]) ⟨1, [2]⟩ [true]) = [⟨1, [2]⟩] :=
  pwsave_C10 zeroKs [3] ⟨1, [2]⟩ [true] (by decide) (by decide)
